import Mathlib

/-!
Shallow embedding of the `DiscreteObjectEnvironment` arena from
`neuralplayground/arenas/discritized_objects.py`, together with proofs of
claims about it.  Real-valued quantities of the Python code are modelled
over `ℚ`.
-/

namespace NeuralPlayground

/-- Python `int(...)` applied to a rational number: truncation toward zero. -/
def pyInt (q : ℚ) : ℤ := if 0 ≤ q then ⌊q⌋ else -⌊-q⌋

/-- Construction-time parameters of `DiscreteObjectEnvironment.__init__`:
`n_objects`, `state_density`, `arena_x_limits`, `arena_y_limits` and
`agent_step_size` from `env_kwargs`. -/
structure Config where
  n_objects : ℕ
  state_density : ℚ
  x_min : ℚ
  x_max : ℚ
  y_min : ℚ
  y_max : ℚ
  agent_step_size : ℚ
deriving DecidableEq, Repr

/-- The code line `self.room_width = np.diff(self.arena_x_limits)[0]`. -/
def roomWidth (c : Config) : ℚ := c.x_max - c.x_min

/-- The code line `self.room_depth = np.diff(self.arena_y_limits)[0]`. -/
def roomDepth (c : Config) : ℚ := c.y_max - c.y_min

/-- The code line `self.resolution_w = int(self.state_density * self.room_width)`. -/
def resolution_w (c : Config) : ℤ := pyInt (c.state_density * roomWidth c)

/-- The code line `self.resolution_d = int(self.state_density * self.room_depth)`. -/
def resolution_d (c : Config) : ℤ := pyInt (c.state_density * roomDepth c)

/-- `resolution_w` as a natural number (the number of grid columns);
`np.linspace` only accepts a nonnegative `num`. -/
def resW (c : Config) : ℕ := (resolution_w c).toNat

/-- `resolution_d` as a natural number (the number of grid rows). -/
def resD (c : Config) : ℕ := (resolution_d c).toNat

/-- The code line `self.n_states = self.resolution_w * self.resolution_d`. -/
def n_states (c : Config) : ℕ := resW c * resD c

/-- Point `i` of `np.linspace lo hi num`: for `num ≥ 2` the points are
`lo + i * (hi - lo) / (num - 1)`; for `num = 1` the single point is `lo`
(and for `num = 0` there are no points, so the value at `i` is irrelevant). -/
def linspace (lo hi : ℚ) (num : ℕ) (i : ℕ) : ℚ :=
  if num ≤ 1 then lo else lo + (i : ℚ) * (hi - lo) / ((num : ℚ) - 1)

/-- The code line
`self.x_array = np.linspace(-self.room_width / 2, self.room_width / 2, num=self.resolution_w)`. -/
def x_array (c : Config) (i : ℕ) : ℚ :=
  linspace (-(roomWidth c) / 2) (roomWidth c / 2) (resW c) i

/-- The code line
`self.y_array = np.linspace(self.room_depth / 2, -self.room_depth / 2, num=self.resolution_d)`. -/
def y_array (c : Config) (j : ℕ) : ℚ :=
  linspace (roomDepth c / 2) (-(roomDepth c) / 2) (resD c) j

/-- Grid cell center addressed by the flat state index `k`.  In
`pos_to_state` the distance matrix has shape `(resolution_d, resolution_w)`
(after the final transpose), so the flat index of `np.argmin` decomposes as
`k = j * resolution_w + i` with cell center `(x_array[i], y_array[j])`. -/
def cellCenter (c : Config) (k : ℕ) : ℚ × ℚ :=
  (x_array c (k % resW c), y_array c (k / resW c))

/-- Squared Euclidean distance, as in `np.sum(diff ** 2, axis=2)`. -/
def sqDist (p q : ℚ × ℚ) : ℚ := (p.1 - q.1) ^ 2 + (p.2 - q.2) ^ 2

/-- First index attaining the minimum of `f` over `{0, …, n}`, scanning left
to right and keeping the earlier index on ties, as `np.argmin` does. -/
def firstArgmin (f : ℕ → ℚ) : ℕ → ℕ
  | 0 => 0
  | n + 1 => if f (n + 1) < f (firstArgmin f n) then n + 1 else firstArgmin f n

/-- `np.argmin` over the flattened array `[f 0, …, f (n - 1)]`; `none` models
the `ValueError` numpy raises on an empty array. -/
def npArgmin (f : ℕ → ℚ) (n : ℕ) : Option ℕ :=
  match n with
  | 0 => none
  | m + 1 => some (firstArgmin f m)

/-- The method `DiscreteObjectEnvironment.pos_to_state`: squared distances
from every cell center to `p`, then `np.argmin` over the flattened matrix. -/
def pos_to_state (c : Config) (p : ℚ × ℚ) : Option ℕ :=
  npArgmin (fun k => sqDist (cellCenter c k) p) (n_states c)

/-- A wall, written as the pair of its two endpoints, matching the matrix
`[[xi, yi], [xf, yf]]` of `_create_default_walls`. -/
def Wall : Type := (ℚ × ℚ) × (ℚ × ℚ)

/-- The method `_create_default_walls`: left, right, bottom and top boundary
walls, in the order the code appends them. -/
def default_walls (c : Config) : List Wall :=
  [((c.x_min, c.y_min), (c.x_min, c.y_max)),
   ((c.x_max, c.y_min), (c.x_max, c.y_max)),
   ((c.x_min, c.y_min), (c.x_max, c.y_min)),
   ((c.x_min, c.y_max), (c.x_max, c.y_max))]

/-- The method `_create_custom_walls` of `DiscreteObjectEnvironment`: empty. -/
def custom_walls (_ : Config) : List Wall := []

/-- The code line `self.wall_list = self.default_walls + self.custom_walls`. -/
def wall_list (c : Config) : List Wall := default_walls c ++ custom_walls c

/-- Modelled from the spec: the helper `check_crossing_wall` is imported from
`neuralplayground.utils`, which is not among the sources here.  Following the
MovementValidator contract of the spec, it tests whether the straight segment
from `pre` to `new` intersects the wall segment, and if so substitutes a
corrected position that does not go past the wall (clamped to the boundary,
namely the intersection point) and reports `crossed = true`; parallel
segments are treated as non-crossing. -/
def check_crossing_wall (pre new : ℚ × ℚ) (wall : Wall) : (ℚ × ℚ) × Bool :=
  let d : ℚ × ℚ := (new.1 - pre.1, new.2 - pre.2)
  let e : ℚ × ℚ := (wall.2.1 - wall.1.1, wall.2.2 - wall.1.2)
  let det : ℚ := e.1 * d.2 - d.1 * e.2
  if det = 0 then (new, false)
  else
    let b : ℚ × ℚ := (wall.1.1 - pre.1, wall.1.2 - pre.2)
    let t : ℚ := (-(e.2) * b.1 + e.1 * b.2) / det
    let s : ℚ := (d.1 * b.2 - d.2 * b.1) / det
    if 0 ≤ t ∧ t ≤ 1 ∧ 0 ≤ s ∧ s ≤ 1 then
      ((pre.1 + t * d.1, pre.2 + t * d.2), true)
    else (new, false)

/-- The method `DiscreteObjectEnvironment.validate_action`: fold the per-wall
check over the wall list, threading the candidate position and accumulating
the crossed flag with `crossed_wall = crossed or crossed_wall`. -/
def validate_action (walls : List Wall) (pre _action new0 : ℚ × ℚ) : (ℚ × ℚ) × Bool :=
  walls.foldl
    (fun acc w =>
      let r := check_crossing_wall pre acc.1 w
      (r.1, r.2 || acc.2))
    (new0, false)

/-- Per-wall crossed flags of the `validate_action` loop, with the candidate
position threaded through the wall checks in wall-list order. -/
def wallFlags (pre : ℚ × ℚ) : List Wall → (ℚ × ℚ) → List Bool
  | [], _ => []
  | w :: ws, cur =>
    (check_crossing_wall pre cur w).2 :: wallFlags pre ws (check_crossing_wall pre cur w).1

/-- Final candidate position of the `validate_action` loop: each wall check
receives the position left by the previous one. -/
def threadedPos (pre : ℚ × ℚ) : List Wall → (ℚ × ℚ) → ℚ × ℚ
  | [], cur => cur
  | w :: ws, cur => threadedPos pre ws (check_crossing_wall pre cur w).1

/-- Row `r` of the matrix `poss_objects` built by `generate_objects`: the
one-hot vector of length `n` with a `1` in column `r`. -/
def possRow (n r : ℕ) : List ℚ :=
  (List.range n).map (fun j => if j = r then 1 else 0)

/-- The method `DiscreteObjectEnvironment.generate_objects`.  The stream
`rint` supplies the raw draws behind `random.randint(0, n_objects - 1)`;
a draw is reduced modulo `n_objects` to land in `[0, n_objects)`, which is
faithful to `randint` whenever `n_objects ≥ 1` (for `n_objects = 0` the
Python call raises). -/
def generate_objects (c : Config) (rint : ℕ → ℕ) : List (List ℚ) :=
  (List.range (n_states c)).map (fun i => possRow c.n_objects (rint i % c.n_objects))

/-- Observation triple `[index, object, pos]` returned by
`make_object_observation`. -/
structure Obs where
  index : ℕ
  obj : List ℚ
  pos : ℚ × ℚ
deriving DecidableEq, Repr

/-- The method `DiscreteObjectEnvironment.make_object_observation` applied to
a position: discretize it with `pos_to_state` and read the object row; `none`
models the exceptions numpy raises on an empty grid or an out-of-range row. -/
def make_object_observation (c : Config) (objects : List (List ℚ)) (pos : ℚ × ℚ) :
    Option Obs :=
  (pos_to_state c pos).bind
    (fun idx => (objects.get? idx).map (fun row => ⟨idx, row, pos⟩))

/-- One record of `self.history`, as assembled in `step`. -/
structure Transition where
  action : ℚ × ℚ
  state : Obs
  next_state : Obs
  reward : ℚ
  step : ℕ
deriving DecidableEq, Repr

/-- Mutable attributes of the environment touched by `reset` and `step`.
The attribute `global_time` is omitted: per the class docstring it always
equals `time_step_size * global_steps`, so it is determined by
`global_steps`. -/
structure EnvState where
  global_steps : ℕ
  history : List Transition
  state : Obs
  objects : List (List ℚ)
deriving DecidableEq, Repr

/-- A draw of `np.random.uniform(low, high)` built from a raw draw `u`
in `[0, 1)`. -/
def uniformDraw (low high u : ℚ) : ℚ := low + u * (high - low)

/-- The method `DiscreteObjectEnvironment.reset`.  The streams `unif` and
`rint` model the `np.random` and `random` module generators (a fixed random
seed fixes both streams).  The method overwrites `global_steps`, `history`
and `state`, picks the initial position (uniform sample if `random_state`,
else the origin, in either case overridden by a given `custom_state`),
regenerates the objects and returns the observation, which also becomes the
new `state`.  The intermediate assignment
`self.state = [-1, -1, [room_width + 1, room_depth + 1]]` is dead in every
path, since `state[-1]` is rewritten before `make_object_observation` reads
it.  The `prev` argument is the pre-call state of the (mutated) Python
object; `reset` reads none of it. -/
def reset (c : Config) (unif : ℕ → ℚ) (rint : ℕ → ℕ) (random_state : Bool)
    (custom_state : Option (ℚ × ℚ)) (prev : EnvState) : Option (Obs × EnvState) :=
  let pos0 : ℚ × ℚ :=
    if random_state then
      (uniformDraw c.x_min c.x_max (unif 0), uniformDraw c.y_min c.y_max (unif 1))
    else (0, 0)
  let pos : ℚ × ℚ :=
    match custom_state with
    | some cs => cs
    | none => pos0
  let objects := generate_objects c rint
  (make_object_observation c objects pos).map (fun obs => (obs, ⟨0, [], obs, objects⟩))

/-- The method `DiscreteObjectEnvironment.step` at the default
`normalize_step=False` (the `True` branch rescales the action by its
Euclidean norm, an irrational quantity outside this rational model).  The
pluggable `reward_function` of the `Environment` base class (not among the
sources; per the spec it defaults to zero) is passed in as `rf`; the code
calls it on the action and the pre-move position.  The base-class helper
`_increase_global_step` is modelled from the spec as incrementing the step
counter. -/
def step (c : Config) (rf : (ℚ × ℚ) → (ℚ × ℚ) → ℚ) (s : EnvState) (action : ℚ × ℚ) :
    Option (Obs × EnvState) :=
  let old_state := s.state
  let new_pos0 : ℚ × ℚ := (s.state.pos.1 + action.1, s.state.pos.2 + action.2)
  let va := validate_action (wall_list c) s.state.pos action new_pos0
  let reward := rf action s.state.pos
  (make_object_observation c s.objects va.1).map
    (fun obs =>
      (obs,
        ⟨s.global_steps + 1,
         s.history ++ [⟨action, old_state, obs, reward, s.global_steps⟩],
         obs, s.objects⟩))

/-- Repeatedly call `step`, once per action in the list. -/
def runSteps (c : Config) (rf : (ℚ × ℚ) → (ℚ × ℚ) → ℚ) (s : EnvState) :
    List (ℚ × ℚ) → Option EnvState
  | [] => some s
  | a :: as => (step c rf s a).bind (fun r => runSteps c rf r.2 as)

/-! Helper lemmas about the argmin scan. -/

theorem firstArgmin_le (f : ℕ → ℚ) (n : ℕ) : firstArgmin f n ≤ n := by
  induction n with
  | zero => simp [firstArgmin]
  | succ n ih =>
    simp only [firstArgmin]
    split
    · exact Nat.le_refl _
    · exact Nat.le_trans ih (Nat.le_succ n)

theorem firstArgmin_min (f : ℕ → ℚ) (n : ℕ) :
    ∀ j, j ≤ n → f (firstArgmin f n) ≤ f j := by
  induction n with
  | zero =>
    intro j hj
    have : j = 0 := Nat.le_zero.mp hj
    subst this
    simp [firstArgmin]
  | succ n ih =>
    intro j hj
    simp only [firstArgmin]
    split
    · rename_i h
      rcases Nat.eq_or_lt_of_le hj with h1 | h1
      · subst h1; exact le_refl _
      · exact le_of_lt (lt_of_lt_of_le h (ih j (Nat.lt_succ_iff.mp h1)))
    · rename_i h
      rcases Nat.eq_or_lt_of_le hj with h1 | h1
      · subst h1; exact not_lt.mp h
      · exact ih j (Nat.lt_succ_iff.mp h1)

theorem firstArgmin_first (f : ℕ → ℚ) (n : ℕ) :
    ∀ j, j < firstArgmin f n → f (firstArgmin f n) < f j := by
  induction n with
  | zero => intro j hj; simp [firstArgmin] at hj
  | succ n ih =>
    intro j hj
    simp only [firstArgmin] at hj ⊢
    split
    · rename_i h
      simp only [if_pos h] at hj
      exact lt_of_lt_of_le h (firstArgmin_min f n j (Nat.lt_succ_iff.mp hj))
    · rename_i h
      simp only [if_neg h] at hj
      exact ih j hj

theorem firstArgmin_eq_of_unique (f : ℕ → ℚ) (n k : ℕ) (hk : k ≤ n)
    (hmin : ∀ j, j ≤ n → j ≠ k → f k < f j) : firstArgmin f n = k := by
  induction n with
  | zero =>
    have : k = 0 := Nat.le_zero.mp hk
    subst this
    simp [firstArgmin]
  | succ n ih =>
    by_cases hk1 : k = n + 1
    · subst hk1
      have hne : firstArgmin f n ≠ n + 1 :=
        Nat.ne_of_lt (Nat.lt_succ_of_le (firstArgmin_le f n))
      have : f (n + 1) < f (firstArgmin f n) :=
        hmin _ (Nat.le_succ_of_le (firstArgmin_le f n)) hne
      simp [firstArgmin, this]
    · have hk2 : k ≤ n := Nat.lt_succ_iff.mp (Nat.lt_of_le_of_ne hk hk1)
      have hfe : firstArgmin f n = k :=
        ih hk2 (fun j hj hne => hmin j (Nat.le_succ_of_le hj) hne)
      have hlt : f k < f (n + 1) := hmin (n + 1) (le_refl _) (fun h => hk1 h.symm)
      simp [firstArgmin, hfe, not_lt.mpr (le_of_lt hlt)]

theorem npArgmin_spec (f : ℕ → ℚ) (n k : ℕ) (h : npArgmin f n = some k) :
    k < n ∧ (∀ j, j < n → f k ≤ f j) ∧ (∀ j, j < k → f k < f j) := by
  cases n with
  | zero => simp [npArgmin] at h
  | succ m =>
    simp only [npArgmin, Option.some.injEq] at h
    subst h
    exact ⟨Nat.lt_succ_of_le (firstArgmin_le f m),
      fun j hj => firstArgmin_min f m j (Nat.lt_succ_iff.mp hj),
      fun j hj => firstArgmin_first f m j hj⟩

theorem npArgmin_pos (f : ℕ → ℚ) (n : ℕ) (h : 0 < n) :
    npArgmin f n = some (firstArgmin f (n - 1)) := by
  cases n with
  | zero => exact absurd h (lt_irrefl 0)
  | succ m => simp [npArgmin]

/-! Helper lemmas about `sqDist`, `pyInt` and `linspace`. -/

theorem sqDist_nonneg (p q : ℚ × ℚ) : 0 ≤ sqDist p q :=
  add_nonneg (sq_nonneg _) (sq_nonneg _)

theorem sqDist_self (p : ℚ × ℚ) : sqDist p p = 0 := by
  simp [sqDist]

theorem sqDist_eq_zero_iff (p q : ℚ × ℚ) : sqDist p q = 0 ↔ p = q := by
  constructor
  · intro h
    have h1 : (p.1 - q.1) ^ 2 = 0 := by
      have a := sq_nonneg (p.1 - q.1)
      have b := sq_nonneg (p.2 - q.2)
      have : sqDist p q = (p.1 - q.1) ^ 2 + (p.2 - q.2) ^ 2 := rfl
      linarith [h, this ▸ h]
    have h2 : (p.2 - q.2) ^ 2 = 0 := by
      have a := sq_nonneg (p.1 - q.1)
      have b := sq_nonneg (p.2 - q.2)
      have : sqDist p q = (p.1 - q.1) ^ 2 + (p.2 - q.2) ^ 2 := rfl
      linarith [h, this ▸ h]
    have e1 : p.1 = q.1 := sub_eq_zero.mp (pow_eq_zero_iff two_ne_zero |>.mp h1)
    have e2 : p.2 = q.2 := sub_eq_zero.mp (pow_eq_zero_iff two_ne_zero |>.mp h2)
    exact Prod.ext e1 e2
  · intro h
    subst h
    exact sqDist_self p

theorem sqDist_pos_of_ne (p q : ℚ × ℚ) (h : p ≠ q) : 0 < sqDist p q :=
  lt_of_le_of_ne (sqDist_nonneg p q) (fun h0 => h ((sqDist_eq_zero_iff p q).mp h0.symm))

theorem pyInt_of_nonneg (q : ℚ) (h : 0 ≤ q) : pyInt q = ⌊q⌋ := if_pos h

theorem le_of_le_pyInt (q : ℚ) (m : ℤ) (hm : 0 < m) (h : m ≤ pyInt q) : (m : ℚ) ≤ q := by
  by_cases hq : 0 ≤ q
  · rw [pyInt_of_nonneg q hq] at h
    exact Int.le_floor.mp h
  · exfalso
    push_neg at hq
    have hneg : 0 ≤ ⌊-q⌋ := Int.floor_nonneg.mpr (by linarith)
    rw [pyInt, if_neg (not_le.mpr hq)] at h
    omega

theorem roomWidth_ne_zero_of_two_le (c : Config) (h : 2 ≤ resW c) : roomWidth c ≠ 0 := by
  have h2 : (2 : ℤ) ≤ resolution_w c := by
    have := h
    simp only [resW] at this
    omega
  have := le_of_le_pyInt (c.state_density * roomWidth c) 2 (by norm_num) h2
  intro hw
  rw [hw, mul_zero] at this
  norm_num at this

theorem roomDepth_ne_zero_of_two_le (c : Config) (h : 2 ≤ resD c) : roomDepth c ≠ 0 := by
  have h2 : (2 : ℤ) ≤ resolution_d c := by
    have := h
    simp only [resD] at this
    omega
  have := le_of_le_pyInt (c.state_density * roomDepth c) 2 (by norm_num) h2
  intro hw
  rw [hw, mul_zero] at this
  norm_num at this

theorem linspace_injOn (lo hi : ℚ) (num : ℕ) (h2 : 2 ≤ num) (hne : hi ≠ lo) :
    ∀ i i', i < num → i' < num → linspace lo hi num i = linspace lo hi num i' → i = i' := by
  intro i i' _ _ heq
  have hnum : ¬ num ≤ 1 := by omega
  simp only [linspace, if_neg hnum] at heq
  have hden : ((num : ℚ) - 1) ≠ 0 := by
    have : (2 : ℚ) ≤ (num : ℚ) := by exact_mod_cast h2
    linarith
  have hs : (hi - lo) / ((num : ℚ) - 1) ≠ 0 :=
    div_ne_zero (sub_ne_zero.mpr hne) hden
  have heq2 : (i : ℚ) * ((hi - lo) / ((num : ℚ) - 1)) =
      (i' : ℚ) * ((hi - lo) / ((num : ℚ) - 1)) := by
    have := add_left_cancel heq
    rw [mul_div_assoc] at this
    rw [mul_div_assoc] at this
    exact this
  have : (i : ℚ) = (i' : ℚ) := mul_right_cancel₀ hs heq2
  exact_mod_cast this

theorem x_array_injOn (c : Config) (i i' : ℕ) (hi : i < resW c) (hi' : i' < resW c)
    (heq : x_array c i = x_array c i') : i = i' := by
  by_cases h2 : 2 ≤ resW c
  · have hw : roomWidth c ≠ 0 := roomWidth_ne_zero_of_two_le c h2
    have hne : roomWidth c / 2 ≠ -(roomWidth c) / 2 := by
      intro h
      apply hw
      field_simp at h
      linarith
    exact linspace_injOn _ _ (resW c) h2 hne i i' hi hi' heq
  · omega

theorem y_array_injOn (c : Config) (j j' : ℕ) (hj : j < resD c) (hj' : j' < resD c)
    (heq : y_array c j = y_array c j') : j = j' := by
  by_cases h2 : 2 ≤ resD c
  · have hw : roomDepth c ≠ 0 := roomDepth_ne_zero_of_two_le c h2
    have hne : -(roomDepth c) / 2 ≠ roomDepth c / 2 := by
      intro h
      apply hw
      field_simp at h
      linarith
    exact linspace_injOn _ _ (resD c) h2 hne j j' hj hj' heq
  · omega

theorem cellCenter_injOn (c : Config) (k k' : ℕ) (hk : k < n_states c)
    (hk' : k' < n_states c) (heq : cellCenter c k = cellCenter c k') : k = k' := by
  have hW : 0 < resW c := by
    rcases Nat.eq_zero_or_pos (resW c) with h | h
    · rw [n_states, h, Nat.zero_mul] at hk
      exact absurd hk (Nat.not_lt_zero k)
    · exact h
  have hD : 0 < resD c := by
    rcases Nat.eq_zero_or_pos (resD c) with h | h
    · rw [n_states, h, Nat.mul_zero] at hk
      exact absurd hk (Nat.not_lt_zero k)
    · exact h
  have hx : x_array c (k % resW c) = x_array c (k' % resW c) :=
    congrArg Prod.fst heq
  have hy : y_array c (k / resW c) = y_array c (k' / resW c) :=
    congrArg Prod.snd heq
  have hered : k / resW c < resD c := by
    rw [n_states] at hk
    exact Nat.div_lt_of_lt_mul hk
  have hered' : k' / resW c < resD c := by
    rw [n_states] at hk'
    exact Nat.div_lt_of_lt_mul hk'
  have hmod : k % resW c = k' % resW c :=
    x_array_injOn c _ _ (Nat.mod_lt k hW) (Nat.mod_lt k' hW) hx
  have hdiv : k / resW c = k' / resW c :=
    y_array_injOn c _ _ hered hered' hy
  calc k = resW c * (k / resW c) + k % resW c := (Nat.div_add_mod k (resW c)).symm
    _ = resW c * (k' / resW c) + k' % resW c := by rw [hmod, hdiv]
    _ = k' := Nat.div_add_mod k' (resW c)

/-- Characterization of `pos_to_state` on a nonempty grid: it returns the
first index minimizing squared distance to the position. -/
theorem pos_to_state_spec (c : Config) (p : ℚ × ℚ) (k : ℕ)
    (h : pos_to_state c p = some k) :
    k < n_states c ∧
      (∀ j, j < n_states c → sqDist (cellCenter c k) p ≤ sqDist (cellCenter c j) p) ∧
      (∀ j, j < k → sqDist (cellCenter c k) p < sqDist (cellCenter c j) p) :=
  npArgmin_spec _ _ _ h

theorem pos_to_state_isSome (c : Config) (p : ℚ × ℚ) (h : 0 < n_states c) :
    pos_to_state c p =
      some (firstArgmin (fun k => sqDist (cellCenter c k) p) (n_states c - 1)) :=
  npArgmin_pos _ _ h

/-- On a nonempty grid, feeding `pos_to_state` the center of cell `k` gives
back exactly `k`: the distance there is zero and all other centers are
distinct points at positive distance. -/
theorem pos_to_state_cellCenter (c : Config) (k : ℕ) (hk : k < n_states c) :
    pos_to_state c (cellCenter c k) = some k := by
  have hpos : 0 < n_states c := Nat.lt_of_le_of_lt (Nat.zero_le k) hk
  rw [pos_to_state_isSome c _ hpos]
  congr 1
  apply firstArgmin_eq_of_unique
  · omega
  · intro j hj hne
    have hjlt : j < n_states c := by omega
    have hcne : cellCenter c j ≠ cellCenter c k := by
      intro hceq
      exact hne (cellCenter_injOn c j k hjlt hk hceq)
    have h0 : sqDist (cellCenter c k) (cellCenter c k) = 0 := sqDist_self _
    have hpos' : 0 < sqDist (cellCenter c j) (cellCenter c k) :=
      sqDist_pos_of_ne _ _ hcne
    rw [h0]
    exact hpos'

/-- The `validate_action` fold, started from any accumulator, ends at the
threaded position with the accumulated or of the per-wall flags. -/
theorem validate_foldl (pre : ℚ × ℚ) (walls : List Wall) :
    ∀ (cur : ℚ × ℚ) (b : Bool),
      walls.foldl
          (fun acc w =>
            let r := check_crossing_wall pre acc.1 w
            (r.1, r.2 || acc.2))
          (cur, b) =
        (threadedPos pre walls cur, ((wallFlags pre walls cur).any (fun x => x)) || b) := by
  induction walls with
  | nil =>
    intro cur b
    simp [threadedPos, wallFlags]
  | cons w ws ih =>
    intro cur b
    simp only [List.foldl_cons, wallFlags, threadedPos, List.any_cons, id]
    rw [ih]
    refine congrArg _ ?_
    cases (check_crossing_wall pre cur w).2 <;>
      cases b <;>
        cases (wallFlags pre ws (check_crossing_wall pre cur w).1).any (fun x => x) <;> rfl

/-! Concrete environments used by witnesses and counterexamples. -/

/-- A 2 x 2 arena with unit density: `arena_x_limits = [-1, 1]`,
`arena_y_limits = [-1, 1]`, `state_density = 1`, `n_objects = 2`. -/
def cfgW : Config := ⟨2, 1, -1, 1, -1, 1, 1⟩

/-- An arena whose room is smaller than one density cell:
`arena_x_limits = [0, 1/2]`, `arena_y_limits = [0, 1/2]`, `state_density = 1`.
Its resolutions are `int(1 * (1/2)) = 0`, so the grid is empty. -/
def cfgDeg : Config := ⟨2, 1, 0, 1/2, 0, 1/2, 1⟩

/-- The arena of claim C2: `arena_x_limits = [-5, 5]`, `arena_y_limits = [-5, 5]`. -/
def cfg2 : Config := ⟨2, 1, -5, 5, -5, 5, 1⟩

/-- An arena with asymmetric limits `arena_x_limits = [0, 2]`,
`arena_y_limits = [0, 2]`, `state_density = 1`: its room is the square
`[0, 2] x [0, 2]`, away from the origin. -/
def cfgC5 : Config := ⟨2, 1, 0, 2, 0, 2, 1⟩

theorem resW_cfgW : resW cfgW = 2 := by
  norm_num [cfgW, resW, resolution_w, pyInt, roomWidth] <;> rfl

theorem resD_cfgW : resD cfgW = 2 := by
  norm_num [cfgW, resD, resolution_d, pyInt, roomDepth] <;> rfl

theorem n_states_cfgW : n_states cfgW = 4 := by
  simp [n_states, resW_cfgW, resD_cfgW]

theorem roomWidth_cfgW : roomWidth cfgW = 2 := by
  norm_num [roomWidth, cfgW]

theorem roomDepth_cfgW : roomDepth cfgW = 2 := by
  norm_num [roomDepth, cfgW]

theorem resW_cfgC5 : resW cfgC5 = 2 := by
  norm_num [cfgC5, resW, resolution_w, pyInt, roomWidth] <;> rfl

theorem resD_cfgC5 : resD cfgC5 = 2 := by
  norm_num [cfgC5, resD, resolution_d, pyInt, roomDepth] <;> rfl

theorem n_states_cfgDeg : n_states cfgDeg = 0 := by
  norm_num [cfgDeg, n_states, resW, resD, resolution_w, resolution_d, pyInt,
    roomWidth, roomDepth]

/-! Lattice structure of `np.linspace`. -/

theorem linspace_zero (lo hi : ℚ) (num : ℕ) : linspace lo hi num 0 = lo := by
  by_cases h : num ≤ 1 <;> simp [linspace, h]

theorem linspace_succ_sub (lo hi : ℚ) (num : ℕ) (h : 2 ≤ num) (i : ℕ) :
    linspace lo hi num (i + 1) - linspace lo hi num i = (hi - lo) / ((num : ℚ) - 1) := by
  have hn : ¬ num ≤ 1 := by omega
  have hden : ((num : ℚ) - 1) ≠ 0 := by
    have : (2 : ℚ) ≤ (num : ℚ) := by exact_mod_cast h
    linarith
  simp only [linspace, if_neg hn]
  push_cast
  field_simp
  ring

theorem linspace_last (lo hi : ℚ) (num : ℕ) (h : 2 ≤ num) :
    linspace lo hi num (num - 1) = hi := by
  have hn : ¬ num ≤ 1 := by omega
  have hden : ((num : ℚ) - 1) ≠ 0 := by
    have : (2 : ℚ) ≤ (num : ℚ) := by exact_mod_cast h
    linarith
  have hcast : ((num - 1 : ℕ) : ℚ) = (num : ℚ) - 1 := by
    have : 1 ≤ num := by omega
    push_cast [this]
    ring
  simp only [linspace, if_neg hn, hcast]
  field_simp

theorem linspace_lt_of_lt (lo hi : ℚ) (num : ℕ) (h : 2 ≤ num) (hlt : lo < hi) :
    ∀ i j, i < j → j < num → linspace lo hi num i < linspace lo hi num j := by
  intro i j hij _
  have hn : ¬ num ≤ 1 := by omega
  have hden : (0 : ℚ) < (num : ℚ) - 1 := by
    have : (2 : ℚ) ≤ (num : ℚ) := by exact_mod_cast h
    linarith
  have hstep : (0 : ℚ) < (hi - lo) / ((num : ℚ) - 1) :=
    div_pos (by linarith) hden
  have hcast : (i : ℚ) < (j : ℚ) := by exact_mod_cast hij
  simp only [linspace, if_neg hn, mul_div_assoc]
  have := mul_lt_mul_of_pos_right hcast hstep
  linarith

theorem linspace_gt_of_lt (lo hi : ℚ) (num : ℕ) (h : 2 ≤ num) (hlt : hi < lo) :
    ∀ i j, i < j → j < num → linspace lo hi num j < linspace lo hi num i := by
  intro i j hij _
  have hn : ¬ num ≤ 1 := by omega
  have hden : (0 : ℚ) < (num : ℚ) - 1 := by
    have : (2 : ℚ) ≤ (num : ℚ) := by exact_mod_cast h
    linarith
  have hstep : (hi - lo) / ((num : ℚ) - 1) < 0 :=
    div_neg_of_neg_of_pos (by linarith) hden
  have hcast : (i : ℚ) < (j : ℚ) := by exact_mod_cast hij
  simp only [linspace, if_neg hn, mul_div_assoc]
  have := mul_lt_mul_of_neg_right hcast hstep
  linarith

/-! Claim theorems. -/

/-- C3: for every previous position, action and proposed position, the
crossed flag returned by `validate_action` equals the logical or, over all
walls in the wall list, of the per-wall crossing flags produced by
`check_crossing_wall`, with the candidate position threaded through the wall
checks in wall-list order (each check applies at most its own correction),
and the returned position is the correspondingly threaded position. -/
theorem claim_C3 (walls : List Wall) (pre action new0 : ℚ × ℚ) :
    (validate_action walls pre action new0).2 =
        (wallFlags pre walls new0).any (fun x => x) ∧
      (validate_action walls pre action new0).1 = threadedPos pre walls new0 := by
  unfold validate_action
  rw [validate_foldl]
  simp

/-- C2: in the `[-5, 5] x [-5, 5]` arena, a step from the default reset
position `(0, 0)` whose proposed new position is `(6, 0)` is corrected by
`validate_action` to a position with x-coordinate at most 5 (here, to the
boundary point `(5, 0)`), with the crossed flag set. -/
theorem claim_C2 :
    (validate_action (wall_list cfg2) (0, 0) (6, 0) (6, 0)).1.1 ≤ 5 ∧
      (validate_action (wall_list cfg2) (0, 0) (6, 0) (6, 0)).2 = true := by
  norm_num [validate_action, check_crossing_wall, wall_list, default_walls,
    custom_walls, cfg2]

/-- C1 fails as stated: in the arena `cfgDeg` with `state_density = 1 ≥ 1`,
the position `(1/4, 1/4)` is strictly inside the arena, yet `N = 0` (both
resolutions are `int(0.5) = 0`) and `pos_to_state` hits `np.argmin` on an
empty array (a `ValueError`, modelled as `none`) instead of an index in
`[0, N)`. -/
theorem claim_C1_counterexample :
    (cfgDeg.x_min < 1 / 4 ∧ (1 / 4 : ℚ) < cfgDeg.x_max ∧
        cfgDeg.y_min < 1 / 4 ∧ (1 / 4 : ℚ) < cfgDeg.y_max ∧
        1 ≤ cfgDeg.state_density) ∧
      pos_to_state cfgDeg (1 / 4, 1 / 4) = none ∧ n_states cfgDeg = 0 := by
  refine ⟨by norm_num [cfgDeg], ?_, n_states_cfgDeg⟩
  simp [pos_to_state, n_states_cfgDeg, npArgmin]

/-- C1 (amended): additionally assuming both computed grid resolutions are
at least 1 (which the degenerate counterexample arena violates), for every
position strictly inside the arena and every state density at least 1,
`pos_to_state` returns an index in `[0, N)` whose cell is at least as close
to the position (in squared Euclidean distance) as every other cell center,
with ties broken by the first minimum in grid enumeration order; and the
discrete index stored in the observation by `make_object_observation` is
exactly that argmin. -/
theorem claim_C1_amended (c : Config) (p : ℚ × ℚ)
    (hx1 : c.x_min < p.1) (hx2 : p.1 < c.x_max)
    (hy1 : c.y_min < p.2) (hy2 : p.2 < c.y_max)
    (hd : 1 ≤ c.state_density)
    (hW : 1 ≤ resW c) (hD : 1 ≤ resD c) :
    ∃ k, pos_to_state c p = some k ∧ k < n_states c ∧
      (∀ j, j < n_states c → sqDist (cellCenter c k) p ≤ sqDist (cellCenter c j) p) ∧
      (∀ j, j < k → sqDist (cellCenter c k) p < sqDist (cellCenter c j) p) ∧
      (∀ objects obs, make_object_observation c objects p = some obs → obs.index = k) := by
  have hpos : 0 < n_states c := Nat.mul_pos hW hD
  have hsome := pos_to_state_isSome c p hpos
  obtain ⟨h1, h2, h3⟩ := pos_to_state_spec c p _ hsome
  refine ⟨_, hsome, h1, h2, h3, ?_⟩
  intro objects obs hobs
  rw [make_object_observation, hsome, Option.some_bind] at hobs
  cases hget : objects.get? (firstArgmin (fun k => sqDist (cellCenter c k) p)
      (n_states c - 1)) with
  | none => rw [hget] at hobs; exact absurd hobs (by simp)
  | some row =>
    rw [hget, Option.map_some'] at hobs
    injection hobs with h
    rw [← h]

/-- Witness for the amended C1 at the concrete arena `cfgW` and the strictly
interior position `(1/3, 1/2)`. -/
theorem claim_C1_witness :
    (cfgW.x_min < 1 / 3 ∧ (1 / 3 : ℚ) < cfgW.x_max ∧
        cfgW.y_min < 1 / 2 ∧ (1 / 2 : ℚ) < cfgW.y_max ∧
        1 ≤ cfgW.state_density ∧ 1 ≤ resW cfgW ∧ 1 ≤ resD cfgW) ∧
      (∃ k, pos_to_state cfgW (1 / 3, 1 / 2) = some k ∧ k < n_states cfgW ∧
        (∀ j, j < n_states cfgW →
          sqDist (cellCenter cfgW k) (1 / 3, 1 / 2) ≤
            sqDist (cellCenter cfgW j) (1 / 3, 1 / 2)) ∧
        (∀ j, j < k →
          sqDist (cellCenter cfgW k) (1 / 3, 1 / 2) <
            sqDist (cellCenter cfgW j) (1 / 3, 1 / 2)) ∧
        (∀ objects obs,
          make_object_observation cfgW objects (1 / 3, 1 / 2) = some obs →
            obs.index = k)) :=
  ⟨⟨by norm_num [cfgW], by norm_num [cfgW], by norm_num [cfgW], by norm_num [cfgW],
      by norm_num [cfgW], by rw [resW_cfgW]; norm_num, by rw [resD_cfgW]; norm_num⟩,
    claim_C1_amended cfgW (1 / 3, 1 / 2)
      (by norm_num [cfgW]) (by norm_num [cfgW]) (by norm_num [cfgW])
      (by norm_num [cfgW]) (by norm_num [cfgW])
      (by rw [resW_cfgW]; norm_num) (by rw [resD_cfgW]; norm_num)⟩

/-- C10 fails as stated: in the degenerate arena `cfgDeg`, `N = 0` and
`pos_to_state` raises (modelled as `none`) at the finite position
`(37, -42)`, rather than returning a valid index in `[0, N)`. -/
theorem claim_C10_counterexample :
    pos_to_state cfgDeg ((37 : ℚ), (-42 : ℚ)) = none ∧ n_states cfgDeg = 0 := by
  constructor
  · simp [pos_to_state, n_states_cfgDeg, npArgmin]
  · exact n_states_cfgDeg

/-- C10 (amended): provided the grid is nonempty (`N ≥ 1`, which the
degenerate counterexample arena violates), `pos_to_state` is total over all
finite positions, inside the arena limits or not: it returns an index in
`[0, N)`, and indexing the freshly generated object table in
`make_object_observation` with it never goes out of bounds. -/
theorem claim_C10_amended (c : Config) (p : ℚ × ℚ) (h : 1 ≤ n_states c) :
    ∃ k, pos_to_state c p = some k ∧ k < n_states c ∧
      ∀ rint, ∃ obs,
        make_object_observation c (generate_objects c rint) p = some obs ∧
          obs.index = k ∧ obs.pos = p := by
  have hsome := pos_to_state_isSome c p h
  obtain ⟨h1, _, _⟩ := pos_to_state_spec c p _ hsome
  refine ⟨_, hsome, h1, ?_⟩
  intro rint
  have hlen : (generate_objects c rint).length = n_states c := by
    simp [generate_objects]
  have hlt : firstArgmin (fun k => sqDist (cellCenter c k) p) (n_states c - 1) <
      (generate_objects c rint).length := by rw [hlen]; exact h1
  refine ⟨⟨_, (generate_objects c rint).get ⟨_, hlt⟩, p⟩, ?_, rfl, rfl⟩
  rw [make_object_observation, hsome, Option.some_bind, List.get?_eq_get hlt,
    Option.map_some']

/-- Witness for the amended C10 at the arena `cfgW` and the position
`(10, -7)`, far outside the arena limits. -/
theorem claim_C10_witness :
    1 ≤ n_states cfgW ∧
      (∃ k, pos_to_state cfgW ((10 : ℚ), (-7 : ℚ)) = some k ∧ k < n_states cfgW ∧
        ∀ rint, ∃ obs,
          make_object_observation cfgW (generate_objects cfgW rint)
              ((10 : ℚ), (-7 : ℚ)) = some obs ∧
            obs.index = k ∧ obs.pos = ((10 : ℚ), (-7 : ℚ))) :=
  ⟨by rw [n_states_cfgW]; norm_num,
    claim_C10_amended cfgW ((10 : ℚ), (-7 : ℚ)) (by rw [n_states_cfgW]; norm_num)⟩

/-- C7: every discrete state index returned by `pos_to_state` round-trips:
`pos_to_state` applied to that cell's own center coordinates returns the
same index again. -/
theorem claim_C7 (c : Config) (p : ℚ × ℚ) (k : ℕ)
    (h : pos_to_state c p = some k) :
    pos_to_state c (cellCenter c k) = some k := by
  obtain ⟨h1, _, _⟩ := pos_to_state_spec c p k h
  exact pos_to_state_cellCenter c k h1

/-- Witness for C7: in `cfgW`, the position `(1/3, 1/2)` discretizes to
state 1, and state 1 round-trips through its own cell center `(1, 1)`. -/
theorem claim_C7_witness :
    pos_to_state cfgW ((1 : ℚ) / 3, (1 : ℚ) / 2) = some 1 ∧
      pos_to_state cfgW (cellCenter cfgW 1) = some 1 := by
  have h : pos_to_state cfgW ((1 : ℚ) / 3, (1 : ℚ) / 2) = some 1 := by
    norm_num [pos_to_state, npArgmin, firstArgmin, n_states_cfgW, sqDist, cellCenter,
      x_array, y_array, linspace, resW_cfgW, resD_cfgW, roomWidth_cfgW, roomDepth_cfgW]
  exact ⟨h, claim_C7 cfgW _ 1 h⟩

theorem roomWidth_cfgC5 : roomWidth cfgC5 = 2 := by
  norm_num [roomWidth, cfgC5]

theorem roomDepth_cfgC5 : roomDepth cfgC5 = 2 := by
  norm_num [roomDepth, cfgC5]

/-- C5 fails as stated: for `arena_x_limits = [0, 2]` the room defined by
the limits is `[0, 2]`, but the code builds
`x_array = np.linspace(-room_width / 2, room_width / 2, ...)`, so the cell
x-coordinates are `{-1, 1}`: the lattice spans `[-1, 1]` (the room
re-centered at the origin), extends left of the room, and never touches the
left room edge `x_min = 0`. -/
theorem claim_C5_counterexample :
    resW cfgC5 = 2 ∧ cfgC5.x_min = 0 ∧ cfgC5.x_max = 2 ∧
      x_array cfgC5 0 = -1 ∧ x_array cfgC5 1 = 1 ∧
      x_array cfgC5 0 < cfgC5.x_min ∧
      (∀ i, i < resW cfgC5 → x_array cfgC5 i ≠ cfgC5.x_min) := by
  have h0 : x_array cfgC5 0 = -1 := by
    norm_num [x_array, linspace, resW_cfgC5, roomWidth_cfgC5]
  have h1 : x_array cfgC5 1 = 1 := by
    norm_num [x_array, linspace, resW_cfgC5, roomWidth_cfgC5]
  refine ⟨resW_cfgC5, by norm_num [cfgC5], by norm_num [cfgC5], h0, h1, ?_, ?_⟩
  · rw [h0]; norm_num [cfgC5]
  · intro i hi
    rw [resW_cfgC5] at hi
    interval_cases i
    · rw [h0]; norm_num [cfgC5]
    · rw [h1]; norm_num [cfgC5]

/-- C5 (amended): for each axis the grid resolution is
`floor(state_density * room_dimension)` (for nonnegative density and
nondegenerate limits, where Python `int` truncation agrees with floor), and
the cell centers form a regular lattice — constant spacing per axis, flat
index splitting row-major into `(x_array[i], y_array[j])` — that spans the
room dimensions re-centered at the origin, `[-room_width/2, room_width/2]`
by `[room_depth/2, -room_depth/2]`, with x ascending and y descending
(whenever the axis has at least two cells).  It does not span the room
defined by the arena x/y limits themselves unless those are symmetric about
the origin. -/
theorem claim_C5_amended (c : Config)
    (hd : 0 ≤ c.state_density) (hx : c.x_min ≤ c.x_max) (hy : c.y_min ≤ c.y_max) :
    (resolution_w c = ⌊c.state_density * roomWidth c⌋ ∧
        resolution_d c = ⌊c.state_density * roomDepth c⌋) ∧
      (∀ k, cellCenter c k = (x_array c (k % resW c), y_array c (k / resW c))) ∧
      (∀ i, i + 1 < resW c →
        x_array c (i + 1) - x_array c i = roomWidth c / ((resW c : ℚ) - 1)) ∧
      (∀ j, j + 1 < resD c →
        y_array c (j + 1) - y_array c j = -(roomDepth c) / ((resD c : ℚ) - 1)) ∧
      (2 ≤ resW c →
        x_array c 0 = -(roomWidth c) / 2 ∧ x_array c (resW c - 1) = roomWidth c / 2 ∧
          ∀ i j, i < j → j < resW c → x_array c i < x_array c j) ∧
      (2 ≤ resD c →
        y_array c 0 = roomDepth c / 2 ∧ y_array c (resD c - 1) = -(roomDepth c) / 2 ∧
          ∀ i j, i < j → j < resD c → y_array c j < y_array c i) := by
  have hw0 : 0 ≤ roomWidth c := by rw [roomWidth]; linarith
  have hd0 : 0 ≤ roomDepth c := by rw [roomDepth]; linarith
  refine ⟨⟨pyInt_of_nonneg _ (mul_nonneg hd hw0), pyInt_of_nonneg _ (mul_nonneg hd hd0)⟩,
    fun k => rfl, ?_, ?_, ?_, ?_⟩
  · intro i hi
    have heq := linspace_succ_sub (-(roomWidth c) / 2) (roomWidth c / 2) (resW c)
      (by omega) i
    rw [x_array, x_array, heq]
    congr 1
    ring
  · intro j hj
    have heq := linspace_succ_sub (roomDepth c / 2) (-(roomDepth c) / 2) (resD c)
      (by omega) j
    rw [y_array, y_array, heq]
    congr 1
    ring
  · intro h2
    have hwpos : 0 < roomWidth c := by
      have h2' : (2 : ℤ) ≤ resolution_w c := by
        have := h2
        simp only [resW] at this
        omega
      have hge := le_of_le_pyInt (c.state_density * roomWidth c) 2 (by norm_num) h2'
      rcases lt_or_eq_of_le hw0 with h | h
      · exact h
      · exfalso
        rw [← h, mul_zero] at hge
        norm_num at hge
    refine ⟨linspace_zero _ _ _, linspace_last _ _ _ h2, ?_⟩
    exact linspace_lt_of_lt _ _ _ h2 (by linarith)
  · intro h2
    have hdpos : 0 < roomDepth c := by
      have h2' : (2 : ℤ) ≤ resolution_d c := by
        have := h2
        simp only [resD] at this
        omega
      have hge := le_of_le_pyInt (c.state_density * roomDepth c) 2 (by norm_num) h2'
      rcases lt_or_eq_of_le hd0 with h | h
      · exact h
      · exfalso
        rw [← h, mul_zero] at hge
        norm_num at hge
    refine ⟨linspace_zero _ _ _, linspace_last _ _ _ h2, ?_⟩
    intro i j hij hj
    exact linspace_gt_of_lt (roomDepth c / 2) (-(roomDepth c) / 2) (resD c) h2
      (by linarith) i j hij hj

/-- Witness for the amended C5 at the concrete arena `cfgW`. -/
theorem claim_C5_witness :
    (0 ≤ cfgW.state_density ∧ cfgW.x_min ≤ cfgW.x_max ∧ cfgW.y_min ≤ cfgW.y_max) ∧
      ((resolution_w cfgW = ⌊cfgW.state_density * roomWidth cfgW⌋ ∧
          resolution_d cfgW = ⌊cfgW.state_density * roomDepth cfgW⌋) ∧
        (∀ k, cellCenter cfgW k = (x_array cfgW (k % resW cfgW),
          y_array cfgW (k / resW cfgW))) ∧
        (∀ i, i + 1 < resW cfgW →
          x_array cfgW (i + 1) - x_array cfgW i = roomWidth cfgW / ((resW cfgW : ℚ) - 1)) ∧
        (∀ j, j + 1 < resD cfgW →
          y_array cfgW (j + 1) - y_array cfgW j =
            -(roomDepth cfgW) / ((resD cfgW : ℚ) - 1)) ∧
        (2 ≤ resW cfgW →
          x_array cfgW 0 = -(roomWidth cfgW) / 2 ∧
            x_array cfgW (resW cfgW - 1) = roomWidth cfgW / 2 ∧
            ∀ i j, i < j → j < resW cfgW → x_array cfgW i < x_array cfgW j) ∧
        (2 ≤ resD cfgW →
          y_array cfgW 0 = roomDepth cfgW / 2 ∧
            y_array cfgW (resD cfgW - 1) = -(roomDepth cfgW) / 2 ∧
            ∀ i j, i < j → j < resD cfgW → y_array cfgW j < y_array cfgW i)) :=
  ⟨⟨by norm_num [cfgW], by norm_num [cfgW], by norm_num [cfgW]⟩,
    claim_C5_amended cfgW (by norm_num [cfgW]) (by norm_num [cfgW]) (by norm_num [cfgW])⟩

/-- C6: for every environment with at least one object and any raw draw
stream, `generate_objects` returns one row per discrete state, and every row
is a valid one-hot vector of length `n_objects`: there is a single column
holding 1 and all other columns hold 0. -/
theorem claim_C6 (c : Config) (rint : ℕ → ℕ) (hn : 1 ≤ c.n_objects) :
    (generate_objects c rint).length = n_states c ∧
      ∀ row, row ∈ generate_objects c rint →
        row.length = c.n_objects ∧
          ∃ r, r < c.n_objects ∧
            ∀ j, j < c.n_objects → row.get? j = some (if j = r then 1 else 0) := by
  constructor
  · simp [generate_objects]
  · intro row hrow
    simp only [generate_objects, List.mem_map] at hrow
    obtain ⟨i, _, hrow⟩ := hrow
    subst hrow
    refine ⟨by simp [possRow], rint i % c.n_objects, Nat.mod_lt _ hn, ?_⟩
    intro j hj
    rw [possRow, List.get?_map, List.get?_range hj, Option.map_some']

/-- Witness for C6 at the arena `cfgW` (`n_objects = 2`) and the constant
draw stream. -/
theorem claim_C6_witness :
    1 ≤ cfgW.n_objects ∧
      ((generate_objects cfgW (fun _ => 0)).length = n_states cfgW ∧
        ∀ row, row ∈ generate_objects cfgW (fun _ => 0) →
          row.length = cfgW.n_objects ∧
            ∃ r, r < cfgW.n_objects ∧
              ∀ j, j < cfgW.n_objects → row.get? j = some (if j = r then 1 else 0)) :=
  ⟨by norm_num [cfgW], claim_C6 cfgW (fun _ => 0) (by norm_num [cfgW])⟩

/-! Inversion helpers for `make_object_observation`, `reset` and `step`. -/

theorem make_object_observation_inv (c : Config) (objects : List (List ℚ))
    (pos : ℚ × ℚ) (obs : Obs) (h : make_object_observation c objects pos = some obs) :
    ∃ idx row, pos_to_state c pos = some idx ∧ objects.get? idx = some row ∧
      obs = ⟨idx, row, pos⟩ := by
  unfold make_object_observation at h
  obtain ⟨idx, hidx, h2⟩ := Option.bind_eq_some.mp h
  obtain ⟨row, hrow, h3⟩ := Option.map_eq_some'.mp h2
  exact ⟨idx, row, hidx, hrow, h3.symm⟩

theorem reset_state_eq (c : Config) (unif : ℕ → ℚ) (rint : ℕ → ℕ) (rs : Bool)
    (cs : Option (ℚ × ℚ)) (prev : EnvState) (obs : Obs) (s1 : EnvState)
    (h : reset c unif rint rs cs prev = some (obs, s1)) :
    s1 = ⟨0, [], obs, generate_objects c rint⟩ := by
  simp only [reset] at h
  obtain ⟨o, _, hfo⟩ := Option.map_eq_some'.mp h
  injection hfo with h1 h2
  subst h1
  exact h2.symm

theorem step_inv (c : Config) (rf : (ℚ × ℚ) → (ℚ × ℚ) → ℚ) (s : EnvState)
    (a : ℚ × ℚ) (obs1 : Obs) (s1 : EnvState) (h : step c rf s a = some (obs1, s1)) :
    s1 = ⟨s.global_steps + 1,
      s.history ++ [⟨a, s.state, obs1, rf a s.state.pos, s.global_steps⟩],
      obs1, s.objects⟩ := by
  simp only [step] at h
  obtain ⟨o, _, hfo⟩ := Option.map_eq_some'.mp h
  injection hfo with h1 h2
  subst h1
  exact h2.symm

theorem runSteps_history_len (c : Config) (rf : (ℚ × ℚ) → (ℚ × ℚ) → ℚ) :
    ∀ (as : List (ℚ × ℚ)) (s s' : EnvState), runSteps c rf s as = some s' →
      s'.history.length = s.history.length + as.length := by
  intro as
  induction as with
  | nil =>
    intro s s' h
    simp only [runSteps, Option.some.injEq] at h
    subst h
    simp
  | cons a as ih =>
    intro s s' h
    simp only [runSteps] at h
    obtain ⟨r, hr, hrest⟩ := Option.bind_eq_some.mp h
    have hs1 := step_inv c rf s a r.1 r.2 hr
    have hlen := ih r.2 s' hrest
    rw [hs1] at hlen
    simp only [List.length_append, List.length_cons, List.length_nil] at hlen
    simp only [List.length_cons]
    omega

/-- C4: after a reset the history is empty; every completed `step` call
appends exactly one transition record — carrying the action, the previous
state, the next state, the reward and the step index — to the end of the
existing history, altering nothing before it; hence after `k` completed
steps following a reset the history has length exactly `k`. -/
theorem claim_C4 (c : Config) (rf : (ℚ × ℚ) → (ℚ × ℚ) → ℚ) (unif : ℕ → ℚ)
    (rint : ℕ → ℕ) (rs : Bool) (cs : Option (ℚ × ℚ)) (prev : EnvState) (obs0 : Obs)
    (s0 : EnvState) (as : List (ℚ × ℚ)) (s' : EnvState)
    (hreset : reset c unif rint rs cs prev = some (obs0, s0))
    (hrun : runSteps c rf s0 as = some s') :
    s0.history = [] ∧ s'.history.length = as.length ∧
      (∀ (s : EnvState) (a : ℚ × ℚ) (obs1 : Obs) (s1 : EnvState),
        step c rf s a = some (obs1, s1) →
          s1.history = s.history ++
            [⟨a, s.state, obs1, rf a s.state.pos, s.global_steps⟩]) := by
  have h0 : s0.history = [] := by
    rw [reset_state_eq c unif rint rs cs prev obs0 s0 hreset]
  refine ⟨h0, ?_, fun s a obs1 s1 h => by rw [step_inv c rf s a obs1 s1 h]⟩
  have hlen := runSteps_history_len c rf as s0 s' hrun
  rw [h0] at hlen
  simpa using hlen

/-- C8: `reset` reads nothing from the pre-call mutable state, so two calls
in a row with identical arguments and identical random streams (a fixed
seed) return the same observation and the same post-reset state: the second
call, made from the state the first call produced, returns exactly what the
first call returned. -/
theorem claim_C8 (c : Config) (unif : ℕ → ℚ) (rint : ℕ → ℕ) (rs : Bool)
    (cs : Option (ℚ × ℚ)) (prev s1 : EnvState) (obs1 : Obs)
    (h : reset c unif rint rs cs prev = some (obs1, s1)) :
    reset c unif rint rs cs s1 = some (obs1, s1) := by
  have hind : reset c unif rint rs cs s1 = reset c unif rint rs cs prev := rfl
  rw [hind, h]

/-- C9: a non-`None` `custom_state` always determines the initial position:
whatever `random_state` is, after a completed reset both the returned
observation and the stored state hold exactly the custom position. -/
theorem claim_C9 (c : Config) (unif : ℕ → ℚ) (rint : ℕ → ℕ) (rs : Bool)
    (cs : ℚ × ℚ) (prev : EnvState) (obs : Obs) (s1 : EnvState)
    (h : reset c unif rint rs (some cs) prev = some (obs, s1)) :
    obs.pos = cs ∧ s1.state.pos = cs := by
  have hstate := reset_state_eq c unif rint rs (some cs) prev obs s1 h
  simp only [reset] at h
  obtain ⟨o, ho, hfo⟩ := Option.map_eq_some'.mp h
  injection hfo with h1 h2
  subst h1
  obtain ⟨idx, row, _, _, hobs⟩ := make_object_observation_inv _ _ _ _ ho
  rw [hstate, hobs]
  exact ⟨rfl, rfl⟩

/-! Concrete runs used by the witnesses of C4, C8 and C9. -/

/-- An arbitrary pre-call environment state. -/
def prev0 : EnvState := ⟨0, [], ⟨0, [], (0, 0)⟩, []⟩

/-- The object table `generate_objects` builds in `cfgW` from the constant
zero draw stream: four copies of the one-hot row `[1, 0]`. -/
def objsW : List (List ℚ) := [[1, 0], [1, 0], [1, 0], [1, 0]]

/-- Observation after `reset cfgW` with the default origin position. -/
def obs0W : Obs := ⟨0, [1, 0], (0, 0)⟩

/-- Environment state after `reset cfgW` from the constant zero streams. -/
def s0W : EnvState := ⟨0, [], obs0W, objsW⟩

/-- The zero reward function (the spec default). -/
def rf0 : (ℚ × ℚ) → (ℚ × ℚ) → ℚ := fun _ _ => 0

/-- Observation after one step of action `(1, 0)` from `s0W`: the move to
`(1, 0)` touches the right wall (crossing flag set, position kept at the
boundary) and lands in state 1. -/
def obs1W : Obs := ⟨1, [1, 0], (1, 0)⟩

/-- Environment state after that step: one history record appended. -/
def s1W : EnvState := ⟨1, [⟨(1, 0), obs0W, obs1W, 0, 0⟩], obs1W, objsW⟩

theorem pos_to_state_cfgW_right : pos_to_state cfgW ((1 : ℚ), (0 : ℚ)) = some 1 := by
  norm_num [pos_to_state, npArgmin, firstArgmin, n_states_cfgW, sqDist, cellCenter,
    x_array, y_array, linspace, resW_cfgW, resD_cfgW, roomWidth_cfgW, roomDepth_cfgW]

theorem generate_objects_cfgW : generate_objects cfgW (fun _ => 0) = objsW := by
  norm_num [generate_objects, possRow, n_states_cfgW, objsW, List.range_succ,
    show cfgW.n_objects = 2 from rfl]

theorem reset_cfgW_eval :
    reset cfgW (fun _ => (0 : ℚ)) (fun _ => 0) false none prev0 = some (obs0W, s0W) := by
  norm_num [reset, generate_objects_cfgW, make_object_observation, pos_to_state,
    npArgmin, firstArgmin, n_states_cfgW, sqDist, cellCenter, x_array, y_array,
    linspace, resW_cfgW, resD_cfgW, roomWidth_cfgW, roomDepth_cfgW, obs0W, s0W, objsW]

theorem wall_list_cfgW :
    wall_list cfgW =
      [((-1, -1), (-1, 1)), ((1, -1), (1, 1)), ((-1, -1), (1, -1)), ((-1, 1), (1, 1))] := by
  norm_num [wall_list, default_walls, custom_walls, cfgW]

theorem runSteps_cfgW_eval :
    runSteps cfgW rf0 s0W [((1 : ℚ), (0 : ℚ))] = some s1W := by
  norm_num [runSteps, step, rf0, s0W, obs0W, objsW, obs1W, s1W, wall_list_cfgW,
    validate_action, check_crossing_wall, make_object_observation,
    pos_to_state_cfgW_right]

/-- Witness for C4: a concrete reset followed by one step in `cfgW`. -/
theorem claim_C4_witness :
    (reset cfgW (fun _ => (0 : ℚ)) (fun _ => 0) false none prev0 = some (obs0W, s0W) ∧
        runSteps cfgW rf0 s0W [((1 : ℚ), (0 : ℚ))] = some s1W) ∧
      (s0W.history = [] ∧ s1W.history.length = [((1 : ℚ), (0 : ℚ))].length ∧
        (∀ (s : EnvState) (a : ℚ × ℚ) (obs1 : Obs) (s1 : EnvState),
          step cfgW rf0 s a = some (obs1, s1) →
            s1.history = s.history ++
              [⟨a, s.state, obs1, rf0 a s.state.pos, s.global_steps⟩])) :=
  ⟨⟨reset_cfgW_eval, runSteps_cfgW_eval⟩,
    claim_C4 cfgW rf0 (fun _ => (0 : ℚ)) (fun _ => 0) false none prev0 obs0W s0W
      [((1 : ℚ), (0 : ℚ))] s1W reset_cfgW_eval runSteps_cfgW_eval⟩

/-- Witness for C8: the concrete reset of `cfgW`, repeated from its own
post-reset state, returns the same observation and state. -/
theorem claim_C8_witness :
    reset cfgW (fun _ => (0 : ℚ)) (fun _ => 0) false none prev0 = some (obs0W, s0W) ∧
      reset cfgW (fun _ => (0 : ℚ)) (fun _ => 0) false none s0W = some (obs0W, s0W) :=
  ⟨reset_cfgW_eval,
    claim_C8 cfgW (fun _ => (0 : ℚ)) (fun _ => 0) false none prev0 s0W obs0W
      reset_cfgW_eval⟩

/-- Observation after `reset cfgW` with `custom_state = (1/3, 1/2)`. -/
def obs13 : Obs := ⟨1, [1, 0], ((1 : ℚ) / 3, (1 : ℚ) / 2)⟩

/-- Environment state after that reset. -/
def s13 : EnvState := ⟨0, [], obs13, objsW⟩

theorem reset_cfgW_custom_eval :
    reset cfgW (fun _ => (0 : ℚ)) (fun _ => 0) true (some ((1 : ℚ) / 3, (1 : ℚ) / 2))
        prev0 = some (obs13, s13) := by
  norm_num [reset, generate_objects_cfgW, make_object_observation, pos_to_state,
    npArgmin, firstArgmin, n_states_cfgW, sqDist, cellCenter, x_array, y_array,
    linspace, resW_cfgW, resD_cfgW, roomWidth_cfgW, roomDepth_cfgW, obs13, s13,
    objsW, uniformDraw]

/-- Witness for C9: a reset of `cfgW` with `random_state = True` and a custom
state still lands exactly on the custom position `(1/3, 1/2)`. -/
theorem claim_C9_witness :
    reset cfgW (fun _ => (0 : ℚ)) (fun _ => 0) true (some ((1 : ℚ) / 3, (1 : ℚ) / 2))
        prev0 = some (obs13, s13) ∧
      obs13.pos = ((1 : ℚ) / 3, (1 : ℚ) / 2) ∧
        s13.state.pos = ((1 : ℚ) / 3, (1 : ℚ) / 2) :=
  ⟨reset_cfgW_custom_eval,
    claim_C9 cfgW (fun _ => (0 : ℚ)) (fun _ => 0) true ((1 : ℚ) / 3, (1 : ℚ) / 2)
      prev0 obs13 s13 reset_cfgW_custom_eval⟩

end NeuralPlayground
